import Mathlib

/-!
Verification of the audio capture daemon (`misteragent-voice-rust`).

The program keeps a rolling history of microphone samples in a fixed-capacity
circular buffer, converts incoming float blocks to 16-bit PCM for a wakeword
detector, and exposes start / stop / save / halt commands that mutate a shared
state object.  This file embeds the data model and the operations of
`src/main.rs` and `src/capture_audio.rs` and proves the spec's testable
properties about them.

Audio samples arrive as `f32` values.  Every sample value the theorems below
evaluate is an integer of magnitude below `2^24`, where `f32` arithmetic is
exact, so samples are modelled as rationals.
-/

namespace MisterVoice

/-- Modelled from the spec: the sample history lives in `ringbuf::HeapRb`, a
third-party crate not part of this source tree.  Spec §4.1 describes it as a
fixed-capacity circular buffer with drop-oldest overwrite.  `data` holds the
currently stored samples in chronological order (oldest first), which is the
order `iter()` yields them. -/
structure HeapRb (α : Type) where
  capacity : Nat
  data : List α
  deriving Repr, DecidableEq

/-- `HeapRb::new(capacity)`: an empty buffer of the given fixed capacity. -/
def HeapRb.new (α : Type) (capacity : Nat) : HeapRb α :=
  { capacity := capacity, data := [] }

/-- Modelled from the spec and the `ringbuf` crate's documented semantics:
`push_overwrite` pops the oldest element when the buffer is full, then pushes
the new element.  It is total: a push never fails and never blocks. -/
def HeapRb.push_overwrite (rb : HeapRb α) (x : α) : HeapRb α :=
  let d := if rb.data.length = rb.capacity then rb.data.tail else rb.data
  { capacity := rb.capacity
    data := if d.length < rb.capacity then d ++ [x] else d }

/-- The capture callback's buffer loop
(`for &sample in data { buffer.push_overwrite(sample); }`,
`src/main.rs:76-78`). -/
def pushAll (rb : HeapRb α) (l : List α) : HeapRb α :=
  l.foldl HeapRb.push_overwrite rb

/-- `AudioState` (`src/main.rs:28-33`): the shared capture state.  The mutex
and atomics guard concurrent access in the source; here the fields carry the
values they protect. -/
structure AudioState where
  buffer : HeapRb ℚ
  is_recording : Bool
  is_halting : Bool
  output_dir : String
  deriving Repr, DecidableEq

/-- `AudioState::new` (`src/main.rs:36-43`). -/
def AudioState.new (capacity : Nat) (output_dir : String) : AudioState :=
  { buffer := HeapRb.new ℚ capacity
    is_recording := true
    is_halting := false
    output_dir := output_dir }

/-- `start_recording` handler (`src/main.rs:99-103`): sets the flag, touches
nothing else. -/
def start_recording (s : AudioState) : AudioState :=
  { s with is_recording := true }

/-- `stop_recording` handler (`src/main.rs:105-109`). -/
def stop_recording (s : AudioState) : AudioState :=
  { s with is_recording := false }

/-- `halt_server` handler (`src/main.rs:156-168`): stops recording, then
raises the halting flag.  (The process exit after the grace period is outside
the state model.) -/
def halt_server (s : AudioState) : AudioState :=
  { s with is_recording := false, is_halting := true }

/-- The buffer snapshot taken by save
(`let buffer_contents: Vec<f32> = { buffer.iter().copied().collect() }`,
`src/main.rs:141-144`): `iter` reads without consuming, so this is a pure
read of the held samples, oldest first. -/
def snapshot (s : AudioState) : List ℚ :=
  s.buffer.data

/-- The audio-stream callback (`src/main.rs:72-80`): when `is_recording` is
set, push every sample of the arriving block into the ring buffer; otherwise
the block is not stored. -/
def capture_callback (s : AudioState) (data : List ℚ) : AudioState :=
  if s.is_recording then { s with buffer := pushAll s.buffer data } else s

/-! ### The concurrent system as a step relation

The whole process is the shared `AudioState` plus the capture loop's stream.
`stream_alive` is true while the input stream built in `capture_audio` is
live; the poll loop (`while !state.is_halting.load(..) { sleep }`,
`src/main.rs:89-91`) observes the halting flag, exits, and drops the stream
(`src/main.rs:95`), after which no callback can fire. -/

/-- One atomic event of the system: a command handler running, the audio
callback firing with a block of samples, or the capture loop's poll observing
the halting flag and dropping the stream. -/
inductive SysOp where
  | start
  | stop
  | save
  | halt
  | callback (data : List ℚ)
  | poll_halt
  deriving Repr, DecidableEq

structure SysState where
  audio : AudioState
  stream_alive : Bool
  deriving Repr, DecidableEq

/-- The effect of one event on the system state.  `save` only reads the
buffer (`snapshot`), so it leaves the state unchanged; a callback can fire
only while the stream is alive; `poll_halt` drops the stream exactly when the
halting flag is observed set. -/
def sys_step (s : SysState) : SysOp → SysState
  | .start => { s with audio := start_recording s.audio }
  | .stop => { s with audio := stop_recording s.audio }
  | .save => s
  | .halt => { s with audio := halt_server s.audio }
  | .callback data =>
      if s.stream_alive then { s with audio := capture_callback s.audio data } else s
  | .poll_halt =>
      if s.audio.is_halting then { s with stream_alive := false } else s

def sys_run (s : SysState) (ops : List SysOp) : SysState :=
  ops.foldl sys_step s

/-- The state right after `main` constructs `AudioState::new` and spawns the
capture task (`src/main.rs:189-196`). -/
def sys_init (capacity : Nat) (output_dir : String) : SysState :=
  { audio := AudioState.new capacity output_dir, stream_alive := true }

/-! ### Float → i16 conversion for the wakeword detector

`src/capture_audio.rs:54-62`:
```
let scaled = x * i16::MAX as f32;
if scaled > i16::MAX as f32 || scaled < i16::MIN as f32 {
    log::warn!("Sample value {} out of i16 range after scaling", scaled);
}
scaled as i16
```
`i16::MAX as f32 = 32767.0` exactly; for the inputs evaluated below the `f32`
product is an integer of magnitude `< 2^24` and therefore exact, so the
scaling is modelled on rationals.  Rust's `as i16` on a float truncates
toward zero and saturates at the type's bounds. -/

/-- `x * i16::MAX as f32`. -/
def i16_scale (x : ℚ) : ℚ := x * 32767

/-- Truncation toward zero, the rounding of Rust's float-to-int `as`. -/
def rat_trunc (q : ℚ) : Int := if 0 ≤ q then ⌊q⌋ else ⌈q⌉

/-- Rust's saturating `as i16` cast applied to a (finite) float value. -/
def f32_as_i16 (q : ℚ) : Int := max (-32768) (min 32767 (rat_trunc q))

/-- The complete per-sample conversion of the callback. -/
def convert_sample (x : ℚ) : Int := f32_as_i16 (i16_scale x)

/-- The condition under which the callback records the out-of-range warning. -/
def sample_warns (x : ℚ) : Prop := 32767 < i16_scale x ∨ i16_scale x < -32768

instance : DecidablePred sample_warns := fun x => by
  unfold sample_warns; infer_instance

/-! ### Chunking for the detector

`src/capture_audio.rs:64-78`: `i16_samples.chunks(frame_length)` partitions
the converted block into consecutive chunks, the last possibly shorter, and
only chunks with `chunk.len() == frame_length` are passed to
`porcupine.process`. -/

/-- Rust's `slice::chunks(F)`: consecutive non-overlapping chunks, the last
one possibly shorter.  (`chunks` requires `F > 0` in Rust; `F = 0` here
returns `[]`.) -/
def chunksOf (F : Nat) (l : List Int) : List (List Int) :=
  if h : F = 0 ∨ l = [] then []
  else l.take F :: chunksOf F (l.drop F)
  termination_by l.length
  decreasing_by
    simp only [not_or] at h
    have hF : 0 < F := Nat.pos_of_ne_zero h.1
    have hl : 0 < l.length := List.length_pos.mpr h.2
    simp only [List.length_drop]
    omega

/-- The chunks actually fed to the detector: exactly the full-length ones
(`if chunk.len() == frame_length { porcupine.process(chunk) ... }`). -/
def detectorChunks (F : Nat) (l : List Int) : List (List Int) :=
  (chunksOf F l).filter (fun c => c.length == F)

/-! ### The save operation

`save_audio_to_file` (`src/capture_audio.rs:100-138`) performs four fallible
I/O actions in order — create the parent directory, create the WAV file,
write each snapshot sample, finalize — propagating each failure with `?` as
an `io::Result`, and returns `Ok(buffer_contents.len())` on success.  The
filesystem's behaviour is abstracted by which of the four actions succeed. -/

/-- Outcome of each filesystem action involved in a save. -/
structure FsEnv where
  create_dir_ok : Bool
  create_file_ok : Bool
  write_ok : Bool
  finalize_ok : Bool
  deriving Repr, DecidableEq

inductive IoError where
  | createDir
  | createFile
  | writeSample
  | finalize
  deriving Repr, DecidableEq

/-- `save_audio_to_file` (`src/capture_audio.rs:100-138`): every failure is
returned as an `Err` to the caller; success returns the written sample
count.  The write step can only fail when there is a sample to write. -/
def save_audio_to_file (env : FsEnv) (s : AudioState) : Except IoError Nat :=
  if env.create_dir_ok = false then .error .createDir
  else if env.create_file_ok = false then .error .createFile
  else if env.write_ok = false ∧ (snapshot s).length ≠ 0 then .error .writeSample
  else if env.finalize_ok = false then .error .finalize
  else .ok (snapshot s).length

/-- What an HTTP handler invocation does to its own thread. -/
inductive HandlerResult where
  | ok (body : String)
  | panicked (msg : String)
  deriving Repr, DecidableEq

/-- The `save_audio` HTTP handler actually wired to `/save`
(`src/main.rs:111-154`): the same four I/O actions, but each failure goes
through `.expect(...)`, which panics the handling thread; the success body
reports the file path, not the sample count. -/
def save_audio (env : FsEnv) (s : AudioState) : HandlerResult :=
  if env.create_dir_ok = false then .panicked "Failed to create output directory"
  else if env.create_file_ok = false then .panicked "Failed to create WAV file"
  else if env.write_ok = false ∧ (snapshot s).length ≠ 0 then .panicked "Failed to write sample"
  else if env.finalize_ok = false then .panicked "Failed to finalize WAV file"
  else .ok "Audio saved"

/-! ## Helper lemmas about the ring buffer -/

theorem pushAll_append (rb : HeapRb α) (l : List α) (x : α) :
    pushAll rb (l ++ [x]) = (pushAll rb l).push_overwrite x := by
  simp [pushAll]

theorem push_overwrite_capacity (rb : HeapRb α) (x : α) :
    (rb.push_overwrite x).capacity = rb.capacity := rfl

theorem pushAll_capacity (rb : HeapRb α) (l : List α) :
    (pushAll rb l).capacity = rb.capacity := by
  induction l generalizing rb with
  | nil => rfl
  | cons y l ih => simpa [pushAll, List.foldl_cons] using ih (rb.push_overwrite y)

/-- Core characterisation: pushing the stream `l` into a fresh buffer of
capacity `C ≥ 1` leaves exactly the last `C` elements of `l` (all of `l` when
it is shorter), oldest first. -/
theorem pushAll_new_data (C : Nat) (hC : 1 ≤ C) (l : List α) :
    (pushAll (HeapRb.new α C) l).data = l.drop (l.length - C) := by
  induction l using List.reverseRecOn with
  | nil => simp [pushAll, HeapRb.new]
  | append_singleton l x ih =>
    rw [pushAll_append]
    have hcap : (pushAll (HeapRb.new α C) l).capacity = C := pushAll_capacity _ _
    have hlen : (pushAll (HeapRb.new α C) l).data.length = l.length - (l.length - C) := by
      rw [ih]; exact List.length_drop _ _
    rcases Nat.lt_or_ge l.length C with h | h
    · have h0 : l.length - C = 0 := Nat.sub_eq_zero_of_le (Nat.le_of_lt h)
      have hne : (pushAll (HeapRb.new α C) l).data.length ≠ C := by omega
      have hlt : (pushAll (HeapRb.new α C) l).data.length < C := by omega
      have h0' : (l ++ [x]).length - C = 0 := by simp; omega
      simp only [HeapRb.push_overwrite, hcap, if_neg hne, if_pos hlt, h0', List.drop_zero]
      rw [ih, h0, List.drop_zero]
    · have heq : (pushAll (HeapRb.new α C) l).data.length = C := by omega
      have htail : ((pushAll (HeapRb.new α C) l).data.tail).length < C := by
        rw [List.length_tail]; omega
      simp only [HeapRb.push_overwrite, hcap, if_pos heq, if_pos htail]
      rw [ih, List.tail_drop]
      have hd : (l.length - C) + 1 ≤ l.length := by omega
      have : (l ++ [x]).length - C = (l.length - C) + 1 := by simp; omega
      rw [this, List.drop_append_of_le_length hd]

/-- `push_overwrite` keeps the stored-sample count within the capacity. -/
theorem push_overwrite_length_le (rb : HeapRb α) (x : α)
    (h : rb.data.length ≤ rb.capacity) :
    (rb.push_overwrite x).data.length ≤ rb.capacity := by
  simp only [HeapRb.push_overwrite]
  split
  · split
    · simp only [List.length_append, List.length_singleton]
      simp_all [List.length_tail]
      omega
    · simp [List.length_tail]; omega
  · split
    · simp only [List.length_append, List.length_singleton]; omega
    · exact h

theorem pushAll_length_le (rb : HeapRb α) (l : List α)
    (h : rb.data.length ≤ rb.capacity) :
    (pushAll rb l).data.length ≤ (pushAll rb l).capacity := by
  induction l generalizing rb with
  | nil => simpa [pushAll]
  | cons y l ih =>
    have := push_overwrite_length_le rb y h
    simpa [pushAll, List.foldl_cons] using
      ih (rb.push_overwrite y) (by simpa [push_overwrite_capacity] using this)

/-! ## Helper lemmas about chunking -/

theorem chunksOf_nil (F : Nat) : chunksOf F [] = [] := by
  rw [chunksOf]; simp

theorem chunksOf_cons (F : Nat) (hF : F ≠ 0) (l : List Int) (hl : l ≠ []) :
    chunksOf F l = l.take F :: chunksOf F (l.drop F) := by
  rw [chunksOf]; simp [hF, hl]

/-- A block of length `k·F` splits into exactly `k` chunks, all of length
`F`, whose concatenation is the block. -/
theorem chunksOf_full (F : Nat) (hF : F ≠ 0) :
    ∀ (k : Nat) (l : List Int), l.length = k * F →
      (chunksOf F l).length = k ∧ (∀ c ∈ chunksOf F l, c.length = F) ∧
        (chunksOf F l).flatten = l := by
  intro k
  induction k with
  | zero =>
    intro l hl
    have hnil : l = [] := List.eq_nil_of_length_eq_zero (by simpa using hl)
    subst hnil
    simp [chunksOf_nil]
  | succ k ih =>
    intro l hl
    have hF1 : 0 < F := Nat.pos_of_ne_zero hF
    rw [Nat.succ_mul] at hl
    have hlF : F ≤ l.length := by omega
    have hl0 : l ≠ [] := by
      intro h
      rw [h] at hl
      simp at hl
      omega
    rw [chunksOf_cons F hF l hl0]
    have htake : (l.take F).length = F := by rw [List.length_take]; omega
    have hdrop : (l.drop F).length = k * F := by rw [List.length_drop]; omega
    obtain ⟨h1, h2, h3⟩ := ih (l.drop F) hdrop
    refine ⟨by simp [h1], ?_, ?_⟩
    · intro c hc
      rcases List.mem_cons.mp hc with rfl | hc
      · exact htake
      · exact h2 c hc
    · rw [List.flatten_cons, h3]
      exact List.take_append_drop F l

/-- A trailing remainder of length `0 < r < F` is dropped by the
full-length filter: the detector sees exactly the chunks of the first
`k·F` samples. -/
theorem detectorChunks_rem (F : Nat) (hF : F ≠ 0) :
    ∀ (k r : Nat) (l : List Int), 0 < r → r < F → l.length = k * F + r →
      detectorChunks F l = chunksOf F (l.take (k * F)) := by
  intro k
  induction k with
  | zero =>
    intro r l hr hrF hl
    rw [Nat.zero_mul, Nat.zero_add] at hl
    have hl0 : l ≠ [] := by
      intro h; rw [h] at hl; simp at hl; omega
    have htake : l.take F = l := List.take_of_length_le (by omega)
    have hdropnil : l.drop F = [] := List.drop_eq_nil_of_le (by omega)
    have hne : (l.length == F) = false := by
      simp only [beq_eq_false_iff_ne, ne_eq, hl]
      omega
    rw [Nat.zero_mul, List.take_zero, chunksOf_nil, detectorChunks,
      chunksOf_cons F hF l hl0, hdropnil, chunksOf_nil, htake]
    simp [List.filter_cons, hne]
  | succ k ih =>
    intro r l hr hrF hl
    have hF1 : 0 < F := Nat.pos_of_ne_zero hF
    rw [Nat.succ_mul] at hl
    have hpos : 0 < l.length := by omega
    have hl0 : l ≠ [] := List.length_pos.mp hpos
    have htakeF : (l.take F).length = F := by rw [List.length_take]; omega
    have hkeep : ((l.take F).length == F) = true := by simp [htakeF]
    have hdroplen : (l.drop F).length = k * F + r := by rw [List.length_drop]; omega
    rw [detectorChunks, chunksOf_cons F hF l hl0, List.filter_cons]
    simp only [hkeep, if_true]
    rw [← detectorChunks, ih r (l.drop F) hr hrF hdroplen]
    have hmulle : (k + 1) * F ≤ l.length := by rw [Nat.succ_mul]; omega
    have hlenR : (l.take ((k + 1) * F)).length = (k + 1) * F := by
      rw [List.length_take]
      rw [Nat.succ_mul]
      omega
    have hposR : 0 < (l.take ((k + 1) * F)).length := by
      rw [hlenR, Nat.succ_mul]; omega
    have hRne : l.take ((k + 1) * F) ≠ [] := List.length_pos.mp hposR
    rw [chunksOf_cons F hF _ hRne]
    have hFle : F ≤ (k + 1) * F := by rw [Nat.succ_mul]; omega
    congr 1
    · rw [List.take_take, Nat.min_eq_left hFle]
    · congr 1
      rw [List.take_drop]
      congr 1
      rw [Nat.succ_mul, Nat.add_comm]

/-! ## Helper lemmas about the system step relation -/

theorem capture_callback_is_halting (s : AudioState) (d : List ℚ) :
    (capture_callback s d).is_halting = s.is_halting := by
  unfold capture_callback; split <;> rfl

/-- No event resets the halting flag. -/
theorem sys_step_halting (s : SysState) (op : SysOp)
    (h : s.audio.is_halting = true) : (sys_step s op).audio.is_halting = true := by
  cases op with
  | start => exact h
  | stop => exact h
  | save => exact h
  | halt => rfl
  | callback d =>
    simp only [sys_step]
    split
    · rw [show ({ s with audio := capture_callback s.audio d } : SysState).audio.is_halting
          = (capture_callback s.audio d).is_halting from rfl,
        capture_callback_is_halting]
      exact h
    · exact h
  | poll_halt =>
    simp only [sys_step]
    split
    · exact h
    · exact h

/-- Once the capture loop has observed the halting flag and dropped the
stream, no event can change the buffer or revive the stream. -/
theorem sys_step_dead (s : SysState) (op : SysOp) (h : s.stream_alive = false) :
    (sys_step s op).audio.buffer = s.audio.buffer ∧
      (sys_step s op).stream_alive = false := by
  cases op with
  | start => exact ⟨rfl, h⟩
  | stop => exact ⟨rfl, h⟩
  | save => exact ⟨rfl, h⟩
  | halt => exact ⟨rfl, h⟩
  | callback d => simp [sys_step, h]
  | poll_halt =>
    simp only [sys_step]
    split
    · exact ⟨rfl, rfl⟩
    · exact ⟨rfl, h⟩

/-- One step preserves the buffer's capacity and its length bound. -/
theorem sys_step_buffer_inv (s : SysState) (op : SysOp)
    (h1 : s.audio.buffer.data.length ≤ s.audio.buffer.capacity) :
    (sys_step s op).audio.buffer.capacity = s.audio.buffer.capacity ∧
      (sys_step s op).audio.buffer.data.length ≤ s.audio.buffer.capacity := by
  cases op with
  | start => exact ⟨rfl, h1⟩
  | stop => exact ⟨rfl, h1⟩
  | save => exact ⟨rfl, h1⟩
  | halt => exact ⟨rfl, h1⟩
  | callback d =>
    simp only [sys_step]
    split
    · simp only [capture_callback]
      split
      · refine ⟨pushAll_capacity _ _, ?_⟩
        have := pushAll_length_le s.audio.buffer d h1
        rwa [pushAll_capacity] at this
      · exact ⟨rfl, h1⟩
    · exact ⟨rfl, h1⟩
  | poll_halt =>
    simp only [sys_step]
    split
    · exact ⟨rfl, h1⟩
    · exact ⟨rfl, h1⟩

theorem sys_run_buffer_inv (s : SysState) (ops : List SysOp)
    (h1 : s.audio.buffer.data.length ≤ s.audio.buffer.capacity) :
    (sys_run s ops).audio.buffer.capacity = s.audio.buffer.capacity ∧
      (sys_run s ops).audio.buffer.data.length ≤ s.audio.buffer.capacity := by
  induction ops generalizing s with
  | nil => exact ⟨rfl, h1⟩
  | cons op ops ih =>
    simp only [sys_run, List.foldl_cons]
    obtain ⟨hc, hl⟩ := sys_step_buffer_inv s op h1
    obtain ⟨hc', hl'⟩ := ih (sys_step s op) (by rw [hc]; exact hl)
    rw [hc] at hc' hl'
    exact ⟨hc', hl'⟩

/-! ## The claims -/

/-- C1: for every capacity `C ≥ 1` and every stream of more than `C` samples
pushed with `push_overwrite`, the buffer afterwards holds exactly the most
recent `C` samples in chronological order (oldest first); the oldest samples
were overwritten and no push failed (`pushAll` is total). -/
theorem buffer_overwrite_invariant (C : Nat) (l : List ℚ)
    (hC : 1 ≤ C) (hl : C < l.length) :
    (pushAll (HeapRb.new ℚ C) l).data = l.drop (l.length - C) ∧
      (pushAll (HeapRb.new ℚ C) l).data.length = C := by
  refine ⟨pushAll_new_data C hC l, ?_⟩
  rw [pushAll_new_data C hC l, List.length_drop]
  omega

theorem buffer_overwrite_invariant_witness :
    (pushAll (HeapRb.new ℚ 4) [1, 2, 3, 4, 5, 6, 7]).data = [4, 5, 6, 7] :=
  ((buffer_overwrite_invariant 4 [1, 2, 3, 4, 5, 6, 7]
      (by decide) (by decide)).1).trans rfl

/-- C6: pushing at most `capacity` samples into a fresh buffer preserves
every sample and their order exactly. -/
theorem no_loss_until_full (C : Nat) (l : List ℚ) (hl : l.length ≤ C) :
    (pushAll (HeapRb.new ℚ C) l).data = l := by
  rcases Nat.eq_zero_or_pos C with h0 | hC
  · subst h0
    have hnil : l = [] := List.eq_nil_of_length_eq_zero (Nat.le_zero.mp hl)
    subst hnil
    rfl
  · rw [pushAll_new_data C hC l, Nat.sub_eq_zero_of_le hl, List.drop_zero]

theorem no_loss_until_full_witness :
    (pushAll (HeapRb.new ℚ 4) [1, 2, 3]).data = [1, 2, 3] :=
  no_loss_until_full 4 [1, 2, 3] (by decide)

theorem convert_sample_one : convert_sample 1 = 32767 := by
  have h1 : i16_scale 1 = ((32767 : ℤ) : ℚ) := by unfold i16_scale; norm_num
  have h2 : rat_trunc (i16_scale 1) = 32767 := by
    rw [h1]
    unfold rat_trunc
    rw [if_pos (by norm_num), Int.floor_intCast]
  unfold convert_sample f32_as_i16
  rw [h2]
  omega

theorem convert_sample_neg_one : convert_sample (-1) = -32767 := by
  have h1 : i16_scale (-1) = ((-32767 : ℤ) : ℚ) := by unfold i16_scale; norm_num
  have h2 : rat_trunc (i16_scale (-1)) = -32767 := by
    rw [h1]
    unfold rat_trunc
    rw [if_neg (by norm_num), Int.ceil_intCast]
  unfold convert_sample f32_as_i16
  rw [h2]
  omega

theorem convert_sample_two : convert_sample 2 = 32767 := by
  have h1 : i16_scale 2 = ((65534 : ℤ) : ℚ) := by unfold i16_scale; norm_num
  have h2 : rat_trunc (i16_scale 2) = 65534 := by
    rw [h1]
    unfold rat_trunc
    rw [if_pos (by norm_num), Int.floor_intCast]
  unfold convert_sample f32_as_i16
  rw [h2]
  omega

/-- C2 (counterexample): the claim says an input of exactly `-1.0` maps to
the minimum representable 16-bit integer `-32768`; the code scales by
`i16::MAX = 32767`, so `-1.0` becomes `-32767`, not `-32768`. -/
theorem conversion_minimum_counterexample :
    convert_sample (-1) ≠ -32768 := by
  rw [convert_sample_neg_one]
  omega

/-- C2 (amended): `1.0` maps to the maximum 16-bit integer `32767` and
`-1.0` maps to `-32767` (the negation of the maximum, one above the
minimum), both without wraparound; `2.0` is clamped at the representable
boundary `32767` — not wrapped — and records a warning, while `1.0` and
`-1.0` do not. -/
theorem conversion_boundary :
    convert_sample 1 = 32767 ∧
    convert_sample (-1) = -32767 ∧
    convert_sample 2 = 32767 ∧
    sample_warns 2 ∧
    ¬ sample_warns 1 ∧
    ¬ sample_warns (-1) := by
  refine ⟨convert_sample_one, convert_sample_neg_one, convert_sample_two, ?_, ?_, ?_⟩
  · exact Or.inl (by unfold i16_scale; norm_num)
  · unfold sample_warns i16_scale
    norm_num
  · unfold sample_warns i16_scale
    norm_num

/-- C3: a block of length `k·F` yields exactly `k` full-length chunks fed to
the detector and zero partial ones; a block of length `k·F + r` with
`0 < r < F` yields the same `k` full chunks, the remainder `r` being
discarded — never zero-padded, never passed on. -/
theorem chunking_correctness (F k r : Nat) (l : List Int) (hF : 1 ≤ F) :
    (l.length = k * F →
      detectorChunks F l = chunksOf F l ∧
      (detectorChunks F l).length = k ∧
      (∀ c ∈ detectorChunks F l, c.length = F) ∧
      (detectorChunks F l).flatten = l) ∧
    (l.length = k * F + r → 0 < r → r < F →
      (detectorChunks F l).length = k ∧
      (∀ c ∈ detectorChunks F l, c.length = F) ∧
      (detectorChunks F l).flatten = l.take (k * F)) := by
  have hF0 : F ≠ 0 := by omega
  constructor
  · intro hl
    obtain ⟨h1, h2, h3⟩ := chunksOf_full F hF0 k l hl
    have heq : detectorChunks F l = chunksOf F l := by
      unfold detectorChunks
      exact List.filter_eq_self.mpr (fun c hc => by simp [h2 c hc])
    refine ⟨heq, by rw [heq]; exact h1, ?_, by rw [heq]; exact h3⟩
    intro c hc
    rw [heq] at hc
    exact h2 c hc
  · intro hl hr hrF
    have hrem := detectorChunks_rem F hF0 k r l hr hrF hl
    have hlen : (l.take (k * F)).length = k * F := by
      rw [List.length_take, hl]
      omega
    obtain ⟨h1, h2, h3⟩ := chunksOf_full F hF0 k (l.take (k * F)) hlen
    refine ⟨by rw [hrem]; exact h1, ?_, by rw [hrem]; exact h3⟩
    intro c hc
    rw [hrem] at hc
    exact h2 c hc

theorem chunking_correctness_witness :
    (detectorChunks 3 [1, 2, 3, 4, 5, 6]).flatten = [1, 2, 3, 4, 5, 6] ∧
    (detectorChunks 3 [1, 2, 3, 4, 5, 6, 7, 8]).length = 2 :=
  ⟨((chunking_correctness 3 2 0 [1, 2, 3, 4, 5, 6] (by decide)).1 (by decide)).2.2.2,
   ((chunking_correctness 3 2 2 [1, 2, 3, 4, 5, 6, 7, 8] (by decide)).2
      (by decide) (by decide) (by decide)).1⟩

/-- C4 (counterexample): the `/save` handler `save_audio` in `src/main.rs`
panics the handling thread via `.expect(..)` when the output directory
cannot be created, instead of returning the failure as a result. -/
theorem save_handler_panics :
    save_audio ⟨false, true, true, true⟩ (AudioState.new 4 "captures") =
      HandlerResult.panicked "Failed to create output directory" := rfl

/-- C4 (amended): `save_audio_to_file` (`src/capture_audio.rs`) returns the
written sample count on success and surfaces every directory-creation /
file-creation / write / finalize failure to the caller as an I/O error value
— it never panics and never aborts the process; the `save_audio` HTTP
handler of `src/main.rs`, by contrast, panics its thread on those same
failures. -/
theorem save_surfaces_io_errors (env : FsEnv) (s : AudioState) :
    (env.create_dir_ok = true → env.create_file_ok = true → env.write_ok = true →
      env.finalize_ok = true →
      save_audio_to_file env s = Except.ok (snapshot s).length) ∧
    (save_audio_to_file env s = Except.ok (snapshot s).length ∨
      ∃ e, save_audio_to_file env s = Except.error e) := by
  constructor
  · intro h1 h2 h3 h4
    simp [save_audio_to_file, h1, h2, h3, h4]
  · unfold save_audio_to_file
    split
    · exact Or.inr ⟨_, rfl⟩
    · split
      · exact Or.inr ⟨_, rfl⟩
      · split
        · exact Or.inr ⟨_, rfl⟩
        · split
          · exact Or.inr ⟨_, rfl⟩
          · exact Or.inl rfl

theorem save_surfaces_io_errors_witness :
    save_audio_to_file ⟨true, true, true, true⟩
      ⟨⟨4, [1, 2]⟩, true, false, "captures"⟩ = Except.ok 2 :=
  (save_surfaces_io_errors _ _).1 rfl rfl rfl rfl

/-- C5: the halting flag is monotonic — once true no event makes it false
again — and once the capture loop has observed it (exited its poll loop and
dropped the stream, `stream_alive = false`), no further event pushes into
the circular buffer, and the stream never comes back. -/
theorem halt_terminality (s : SysState) (ops : List SysOp) :
    (s.audio.is_halting = true → (sys_run s ops).audio.is_halting = true) ∧
    (s.stream_alive = false →
      (sys_run s ops).audio.buffer = s.audio.buffer ∧
      (sys_run s ops).stream_alive = false) := by
  induction ops generalizing s with
  | nil => exact ⟨fun h => h, fun h => ⟨rfl, h⟩⟩
  | cons op ops ih =>
    simp only [sys_run, List.foldl_cons]
    refine ⟨fun h => ?_, fun h => ?_⟩
    · exact (ih (sys_step s op)).1 (sys_step_halting s op h)
    · obtain ⟨hb, hd⟩ := sys_step_dead s op h
      obtain ⟨hb', hd'⟩ := (ih (sys_step s op)).2 hd
      exact ⟨hb'.trans hb, hd'⟩

theorem halt_terminality_witness :
    (sys_run ⟨⟨HeapRb.new ℚ 4, false, true, "captures"⟩, false⟩
        [SysOp.callback [1, 2], SysOp.start, SysOp.poll_halt]).audio.is_halting
      = true ∧
    (sys_run ⟨⟨HeapRb.new ℚ 4, false, true, "captures"⟩, false⟩
        [SysOp.callback [1, 2], SysOp.start, SysOp.poll_halt]).audio.buffer
      = HeapRb.new ℚ 4 :=
  ⟨(halt_terminality _ _).1 rfl, ((halt_terminality _ _).2 rfl).1⟩

/-- C7: the snapshot taken by save is non-destructive — a save event leaves
the whole state unchanged, so two snapshots with no intervening push are
identical and the buffer is untouched. -/
theorem snapshot_nondestructive (s : SysState) :
    sys_step s SysOp.save = s ∧
    snapshot (sys_step s SysOp.save).audio = snapshot s.audio ∧
    (sys_step s SysOp.save).audio.buffer = s.audio.buffer :=
  ⟨rfl, rfl, rfl⟩

/-- C8: `start_recording` and `stop_recording` are idempotent; start leaves
`is_recording = true`, stop leaves `is_recording = false`, and both leave
the buffer, the halting flag and the output directory unchanged (stop does
not clear the buffer). -/
theorem recording_toggle_idempotence (s : AudioState) :
    start_recording (start_recording s) = start_recording s ∧
    stop_recording (stop_recording s) = stop_recording s ∧
    (start_recording s).is_recording = true ∧
    (start_recording s).buffer = s.buffer ∧
    (start_recording s).is_halting = s.is_halting ∧
    (start_recording s).output_dir = s.output_dir ∧
    (stop_recording s).is_recording = false ∧
    (stop_recording s).buffer = s.buffer ∧
    (stop_recording s).is_halting = s.is_halting ∧
    (stop_recording s).output_dir = s.output_dir :=
  ⟨rfl, rfl, rfl, rfl, rfl, rfl, rfl, rfl, rfl, rfl⟩

/-- C9: immediately after `AudioState::new`, recording is enabled and the
halting flag is clear: capture into the rolling buffer is on by default at
startup. -/
theorem initial_flags (C : Nat) (dir : String) :
    (AudioState.new C dir).is_recording = true ∧
    (AudioState.new C dir).is_halting = false :=
  ⟨rfl, rfl⟩

/-- C10: in every state reachable from startup by any sequence of events,
the buffer holds at most `capacity` samples — so every snapshot returned by
save has length at most the capacity fixed at construction, which never
changes. -/
theorem buffer_bounded (C : Nat) (dir : String) (ops : List SysOp) :
    (snapshot (sys_run (sys_init C dir) ops).audio).length ≤ C ∧
    (sys_run (sys_init C dir) ops).audio.buffer.capacity = C := by
  have h := sys_run_buffer_inv (sys_init C dir) ops
    (by simp [sys_init, AudioState.new, HeapRb.new])
  constructor
  · simpa [snapshot, sys_init, AudioState.new, HeapRb.new] using h.2
  · simpa [sys_init, AudioState.new, HeapRb.new] using h.1

end MisterVoice
